import Mathlib

/-!
Verification of the time-series forecasting logic of the repository's RNN
notebook (`src/RNN/Time-series Forecasting.ipynb`).

The embedding works over exact rationals (ℚ) in place of IEEE doubles: every
claim below is about the control structure of the loops (trace lengths, state
threading, which value is read where), not about floating-point rounding.
The pointwise activation (`tanh` in the source, applied by the framework's
`RNNCell`) is abstracted as an arbitrary function `act : ℚ → ℚ`; all theorems
hold for every activation.

Vectors are lists of rationals, matrices are lists of row vectors.  A single
sequence (one row of the notebook's batch) is modelled; the batch dimension is
an independent map over sequences and carries no shared state.
-/

/-- Errors raised by the framework calls made in the notebook, plus the
spec's designated `InvalidInput` kind.  `shapeMismatch` models the runtime
error the framework raises when input/state dimensions disagree with the
configured sizes; `emptyCat` models the runtime error of concatenating an
empty list of tensors. -/
inductive RNNError where
  | shapeMismatch
  | emptyCat
  | invalidInput
deriving DecidableEq

instance {ε α : Type} [DecidableEq ε] [DecidableEq α] :
    DecidableEq (Except ε α) := fun a b =>
  match a, b with
  | .error e, .error e' =>
    if h : e = e' then .isTrue (by rw [h])
    else .isFalse (fun hc => h (Except.error.inj hc))
  | .ok v, .ok v' =>
    if h : v = v' then .isTrue (by rw [h])
    else .isFalse (fun hc => h (Except.ok.inj hc))
  | .error _, .ok _ => .isFalse (fun hc => Except.noConfusion hc)
  | .ok _, .error _ => .isFalse (fun hc => Except.noConfusion hc)

/-- Dot product of two rational vectors. -/
def dot (u v : List ℚ) : ℚ := (List.zipWith (fun a b => a * b) u v).sum

/-- Matrix times vector, the matrix given as a list of rows. -/
def matVec (m : List (List ℚ)) (v : List ℚ) : List ℚ :=
  m.map (fun row => dot row v)

/-- Componentwise vector addition. -/
def vadd (u v : List ℚ) : List ℚ := List.zipWith (fun a b => a + b) u v

/-- Parameters of `nn.RNNCell(input_size, hidden_size)`: two weight matrices
and two bias vectors, together with the configured sizes. -/
structure RNNCellParams where
  inputSize : Nat
  hiddenSize : Nat
  weight_ih : List (List ℚ)
  bias_ih : List ℚ
  weight_hh : List (List ℚ)
  bias_hh : List ℚ

/-- Parameters of `nn.Linear(in_features, out_features)`. -/
structure LinearParams where
  inFeatures : Nat
  outFeatures : Nat
  weight : List (List ℚ)
  bias : List ℚ

/-- The fields of the notebook's `RNN` module: configured sizes plus the two
sub-modules `rnn1 = nn.RNNCell(input_size, hidden_size)` and
`linear = nn.Linear(hidden_size, output_size)`. -/
structure RNNParams where
  inputSize : Nat
  hiddenSize : Nat
  outputSize : Nat
  rnn1 : RNNCellParams
  linear : LinearParams

/-- Shape well-formedness of cell parameters, as guaranteed by the framework's
constructor: both weight matrices and both biases have `hiddenSize` rows. -/
def RNNCellParams.WF (c : RNNCellParams) : Prop :=
  c.weight_ih.length = c.hiddenSize ∧ c.bias_ih.length = c.hiddenSize ∧
  c.weight_hh.length = c.hiddenSize ∧ c.bias_hh.length = c.hiddenSize

/-- Shape well-formedness of linear parameters. -/
def LinearParams.WF (l : LinearParams) : Prop :=
  l.weight.length = l.outFeatures ∧ l.bias.length = l.outFeatures

/-- Shape well-formedness of the whole model: the sub-modules carry the sizes
the `RNN.__init__` passes them. -/
def RNNParams.WF (p : RNNParams) : Prop :=
  p.rnn1.WF ∧ p.linear.WF ∧
  p.rnn1.inputSize = p.inputSize ∧ p.rnn1.hiddenSize = p.hiddenSize ∧
  p.linear.inFeatures = p.hiddenSize ∧ p.linear.outFeatures = p.outputSize

instance (c : RNNCellParams) : Decidable c.WF := by
  unfold RNNCellParams.WF
  infer_instance

instance (l : LinearParams) : Decidable l.WF := by
  unfold LinearParams.WF
  infer_instance

instance (p : RNNParams) : Decidable p.WF := by
  unfold RNNParams.WF
  infer_instance

/-- One application of the recurrence kernel
`h1 = act(W_ih x + b_ih + W_hh h + b_hh)` — the body of `nn.RNNCell`,
with the framework's dimension check in front: input and state lengths must
equal the configured sizes, otherwise the call raises a shape error. -/
def RNNCellParams.run (act : ℚ → ℚ) (c : RNNCellParams) (x h : List ℚ) :
    Except RNNError (List ℚ) :=
  if x.length = c.inputSize ∧ h.length = c.hiddenSize then
    .ok ((vadd (vadd (matVec c.weight_ih x) c.bias_ih)
               (vadd (matVec c.weight_hh h) c.bias_hh)).map act)
  else .error .shapeMismatch

/-- One application of `nn.Linear`: `y = W h + b`, with the framework's
dimension check on the input. -/
def LinearParams.run (l : LinearParams) (h : List ℚ) :
    Except RNNError (List ℚ) :=
  if h.length = l.inFeatures then
    .ok (vadd (matVec l.weight h) l.bias)
  else .error .shapeMismatch

/-- The open-loop body of `RNN.forward`:
  for input_t in input.split(1, dim=1):
      hidden = self.rnn1(input_t, hidden)
      output = self.linear(hidden)
      outputs += [output]
Explicit state passing: `hidden` is the carried state, `outputs` the
accumulated per-step outputs (appended in order). -/
def runSteps (act : ℚ → ℚ) (p : RNNParams) :
    List (List ℚ) → List ℚ → List (List ℚ) →
    Except RNNError (List (List ℚ) × List ℚ)
  | [], hidden, outputs => .ok (outputs, hidden)
  | x :: rest, hidden, outputs =>
    match p.rnn1.run act x hidden with
    | .error e => .error e
    | .ok h1 =>
      match p.linear.run h1 with
      | .error e => .error e
      | .ok output => runSteps act p rest h1 (outputs ++ [output])

/-- `torch.cat(outputs, dim=1)` on the list of per-step outputs: raises a
runtime error on an empty list, otherwise yields the trace in step order. -/
def torchCat (outputs : List (List ℚ)) : Except RNNError (List (List ℚ)) :=
  if outputs.isEmpty then .error .emptyCat else .ok outputs

/-- The exercise skeleton `RNN.forward(self, input, future=0)` exactly as it
stands in the notebook: zero-initialize `hidden`, run the open-loop steps,
concatenate the outputs, return `(outputs, hidden)`.  The `future` parameter
is accepted but never read — the look-ahead loop is left for the exercise. -/
def RNN.forward (act : ℚ → ℚ) (p : RNNParams) (input : List (List ℚ))
    (future : Nat) : Except RNNError (List (List ℚ) × List ℚ) :=
  match runSteps act p input (List.replicate p.hiddenSize (0 : ℚ)) [] with
  | .error e => .error e
  | .ok (outputs, hidden) =>
    match torchCat outputs with
    | .error e => .error e
    | .ok outputs => .ok (outputs, hidden)

/-- The closed-loop ("future") phase of the unroll driver: each step feeds the
most recently produced output back in as the input, updates the state with the
same recurrence kernel, projects the new state, and appends the projection.
Returns the future outputs in order together with the final state. -/
def futureSteps (act : ℚ → ℚ) (p : RNNParams) :
    Nat → List ℚ → List ℚ → Except RNNError (List (List ℚ) × List ℚ)
  | 0, _, hidden => .ok ([], hidden)
  | n + 1, output, hidden =>
    match p.rnn1.run act output hidden with
    | .error e => .error e
    | .ok h1 =>
      match p.linear.run h1 with
      | .error e => .error e
      | .ok output1 =>
        match futureSteps act p n output1 h1 with
        | .error e => .error e
        | .ok (rest, hfin) => .ok (output1 :: rest, hfin)

/-- Modelled from the spec: the completed unroll driver of
`solutions/1_future.py`, which the notebook loads over the exercise skeleton
but which is not part of the source tree.  Per spec §4.3: given `T` input
steps and `future >= 0`, initialize the state to zero, run `T` open-loop
steps, then `future` closed-loop steps seeded with the last open-loop output,
and return the full trace plus the final state; `T = 0` with `future > 0` is
undefined (no seed input) and fails with `InvalidInput`; `future = 0`
degrades to plain open-loop prediction over the given sequence. -/
def unrollDriver (act : ℚ → ℚ) (p : RNNParams) (input : List (List ℚ))
    (future : Nat) : Except RNNError (List (List ℚ) × List ℚ) :=
  if input.isEmpty ∧ 0 < future then .error .invalidInput
  else
    match runSteps act p input (List.replicate p.hiddenSize (0 : ℚ)) [] with
    | .error e => .error e
    | .ok (outputs, hidden) =>
      match outputs.getLast? with
      | none => .ok (outputs, hidden)
      | some out =>
        match futureSteps act p future out hidden with
        | .error e => .error e
        | .ok (fouts, hfin) => .ok (outputs ++ fouts, hfin)

/-- Numpy element read with negative-index wraparound: `a[-k]` is
`a[len(a)-k]`. -/
def npGet (xs : List ℚ) (t : Int) : ℚ :=
  if t < 0 then xs.getD (xs.length - (-t).toNat) 0 else xs.getD t.toNat 0

/-- One iteration of the naive walk-forward loop:
  t = len(train_signal) + i
  predictions[i] = history[t-1]
  history[t] = test_signal[i]
State is the pair `(history, predictions)`. -/
def naiveStep (trainLen : Nat) (test : List ℚ) (st : List ℚ × List ℚ)
    (i : Nat) : List ℚ × List ℚ :=
  let t := trainLen + i
  (st.1.set t (test.getD i 0), st.2.set i (npGet st.1 ((t : Int) - 1)))

/-- One iteration of the exponential-smoothing walk-forward loop:
  t = len(train_signal) + i
  if i == 0: predictions[i] = history[t-1]
  else:      predictions[i] = alpha * history[t-1] + (1-alpha) * predictions[i-1]
  history[t] = test_signal[i] -/
def expStep (alpha : ℚ) (trainLen : Nat) (test : List ℚ)
    (st : List ℚ × List ℚ) (i : Nat) : List ℚ × List ℚ :=
  let t := trainLen + i
  let pred := if i = 0 then npGet st.1 ((t : Int) - 1)
              else alpha * npGet st.1 ((t : Int) - 1) +
                   (1 - alpha) * npGet st.2 ((i : Int) - 1)
  (st.1.set t (test.getD i 0), st.2.set i pred)

/-- The walk-forward scaffold shared by the baseline cells:
  history = np.append(train_signal, np.zeros(len(test_signal)))
  predictions = np.zeros(len(test_signal))
  for i in range(len(test_signal)): ... step ...
  return predictions -/
def walkForward (step : (List ℚ × List ℚ) → Nat → (List ℚ × List ℚ))
    (train test : List ℚ) : List ℚ :=
  ((List.range test.length).foldl step
    (train ++ List.replicate test.length 0, List.replicate test.length 0)).2

/-- The naive baseline of cell-22: predict the previous observed value at
every walk-forward step. -/
def naivePredictions (train test : List ℚ) : List ℚ :=
  walkForward (naiveStep train.length test) train test

/-- `exponential_smoothing(alpha)` of cell-29, with the notebook's global
`train_signal`/`test_signal` made explicit arguments. -/
def exponential_smoothing (alpha : ℚ) (train test : List ℚ) : List ℚ :=
  walkForward (expStep alpha train.length test) train test

/-- `sklearn.metrics.mean_squared_error`: mean of componentwise squared
differences. -/
def mean_squared_error (a b : List ℚ) : ℚ :=
  (List.zipWith (fun x y => (x - y) ^ 2) a b).sum / a.length

/-- Proof scaffolding: the walk-forward loop state of the exponential
smoothing cell after `k` iterations. -/
def expLoopState (alpha : ℚ) (train test : List ℚ) (k : Nat) :
    List ℚ × List ℚ :=
  (List.range k).foldl (expStep alpha train.length test)
    (train ++ List.replicate test.length 0, List.replicate test.length 0)

/-- The value the exponential-smoothing loop stores into `predictions[i]`,
written as a recurrence: the seed read `history[len(train)-1]` at `i = 0`,
then `alpha * test[i-1] + (1-alpha) * previous` afterwards. -/
def specPredExp (alpha : ℚ) (train test : List ℚ) : Nat → ℚ
  | 0 => npGet (train ++ List.replicate test.length 0) ((train.length : Int) - 1)
  | i + 1 => alpha * test.getD i 0 + (1 - alpha) * specPredExp alpha train test i

/-- A concrete well-formed 1/1/1 model used to instantiate theorems:
`W_ih = [[1]]`, `b_ih = [0]`, `W_hh = [[0]]`, `b_hh = [0]`, linear weight
`[[1]]`, bias `[0]`. -/
def exampleParams : RNNParams :=
  ⟨1, 1, 1, ⟨1, 1, [[1]], [0], [[0]], [0]⟩, ⟨1, 1, [[1]], [0]⟩⟩

/-! ## Helper lemmas -/

/-- If the open-loop body succeeds, the output list extends the accumulator by
exactly one output per input step. -/
lemma runSteps_length (act : ℚ → ℚ) (p : RNNParams) :
    ∀ (input : List (List ℚ)) (hidden acc outs hfin : _),
    runSteps act p input hidden acc = .ok (outs, hfin) →
    outs.length = acc.length + input.length := by
  intro input
  induction input with
  | nil =>
    intro hidden acc outs hfin h
    simp only [runSteps] at h
    cases h
    simp
  | cons x rest ih =>
    intro hidden acc outs hfin h
    simp only [runSteps] at h
    split at h
    · cases h
    · split at h
      · cases h
      · have hlen := ih _ _ _ _ h
        simp only [List.length_append, List.length_cons, List.length_nil] at hlen ⊢
        omega

/-! ## Claim theorems -/

/-- **C3.** The skeleton `RNN.forward` initializes the carried state to the
all-zero vector before the first step of each call: on a non-empty input the
computation is exactly the recurrence kernel applied to the first input and
`List.replicate hiddenSize 0`, followed by the projection, the remaining
steps from that new state, and the final concatenation. -/
theorem forward_zero_state_init (act : ℚ → ℚ) (p : RNNParams)
    (x : List ℚ) (xs : List (List ℚ)) (future : Nat) :
    RNN.forward act p (x :: xs) future =
      match p.rnn1.run act x (List.replicate p.hiddenSize (0 : ℚ)) with
      | .error e => .error e
      | .ok h1 =>
        match p.linear.run h1 with
        | .error e => .error e
        | .ok out1 =>
          match runSteps act p xs h1 [out1] with
          | .error e => .error e
          | .ok (outputs, hidden) =>
            match torchCat outputs with
            | .error e => .error e
            | .ok trace => .ok (trace, hidden) := by
  cases hc : p.rnn1.run act x (List.replicate p.hiddenSize (0 : ℚ)) with
  | error e => simp [RNN.forward, runSteps, hc]
  | ok h1 =>
    cases hl : p.linear.run h1 with
    | error e => simp [RNN.forward, runSteps, hc, hl]
    | ok out1 => simp [RNN.forward, runSteps, hc, hl]

/-- **C4.** The forward pass is deterministic: two calls of the skeleton
`RNN.forward` (and of the completed unroll driver) with identical activation,
parameters, input sequence, and future count return identical results —
trace and final state alike.  There is no randomness in the forward pass. -/
theorem forward_deterministic (act act' : ℚ → ℚ) (p p' : RNNParams)
    (input input' : List (List ℚ)) (future future' : Nat)
    (ha : act = act') (hp : p = p') (hi : input = input')
    (hf : future = future') :
    RNN.forward act p input future = RNN.forward act' p' input' future' ∧
    unrollDriver act p input future = unrollDriver act' p' input' future' := by
  subst ha hp hi hf
  exact ⟨rfl, rfl⟩

/-- Witness for C4 at a concrete model and input. -/
theorem forward_deterministic_witness :
    RNN.forward (fun q => q) exampleParams [[1]] 2 =
      RNN.forward (fun q => q) exampleParams [[1]] 2 ∧
    unrollDriver (fun q => q) exampleParams [[1]] 2 =
      unrollDriver (fun q => q) exampleParams [[1]] 2 :=
  forward_deterministic _ _ _ _ _ _ _ _ rfl rfl rfl rfl

/-- **C6.** Modelled from the spec (the completed driver of
`solutions/1_future.py` is not in the source tree): on the empty input
sequence with `future > 0` the unroll driver fails with `InvalidInput` —
there is no seed input for the closed-loop phase — rather than returning a
trace. -/
theorem unrollDriver_empty_input_invalid (act : ℚ → ℚ) (p : RNNParams)
    (future : Nat) (hf : 0 < future) :
    unrollDriver act p [] future = .error .invalidInput := by
  simp [unrollDriver, hf]

/-- Witness for C6 at a concrete model. -/
theorem unrollDriver_empty_input_invalid_witness :
    unrollDriver (fun q => q) exampleParams [] 1 = .error .invalidInput :=
  unrollDriver_empty_input_invalid (fun q => q) exampleParams 1 (by norm_num)

/-- **C8.** Naive walk-forward baseline scenario: with training history
`[1,2,3]` and test sequence `[4,5]` the predictions are `[3,4]` (each step
predicts the previous true value), the mean squared error against the test
sequence is `1`, and hence the root mean squared error is `sqrt 1 = 1`. -/
theorem naive_baseline_scenario :
    naivePredictions [1, 2, 3] [4, 5] = [3, 4] ∧
    mean_squared_error (naivePredictions [1, 2, 3] [4, 5]) [4, 5] = 1 ∧
    Real.sqrt ((mean_squared_error (naivePredictions [1, 2, 3] [4, 5]) [4, 5] : ℚ) : ℝ) = 1 := by
  have h1 : naivePredictions [1, 2, 3] [4, 5] = [3, 4] := rfl
  have h2 : mean_squared_error ([3, 4] : List ℚ) [4, 5] = 1 := by
    norm_num [mean_squared_error]
  refine ⟨h1, by rw [h1]; exact h2, ?_⟩
  rw [h1, h2]
  norm_num

/-- **C9.** In the exercise skeleton `RNN.forward` as it stands in the
notebook, the `future` parameter has no effect: the result coincides with the
`future = 0` call, and every successful trace has length exactly `T`, the
number of input steps. -/
theorem skeleton_future_no_effect (act : ℚ → ℚ) (p : RNNParams)
    (input : List (List ℚ)) (future : Nat) :
    RNN.forward act p input future = RNN.forward act p input 0 ∧
    ∀ trace hfin, RNN.forward act p input future = .ok (trace, hfin) →
      trace.length = input.length := by
  refine ⟨rfl, ?_⟩
  intro trace hfin h
  simp only [RNN.forward] at h
  cases hr : runSteps act p input (List.replicate p.hiddenSize (0 : ℚ)) [] with
  | error e => rw [hr] at h; cases h
  | ok pr =>
    rw [hr] at h
    obtain ⟨outs, hid⟩ := pr
    simp only [torchCat] at h
    by_cases he : outs.isEmpty
    · rw [if_pos he] at h; cases h
    · rw [if_neg he] at h
      cases h
      simpa using runSteps_length act p input _ _ _ _ hr

/-- Witness for C9: a successful concrete call with `future = 3` whose trace
length equals the input length `1`. -/
theorem skeleton_future_no_effect_witness :
    ([[(1 : ℚ)]] : List (List ℚ)).length = ([[(1 : ℚ)]] : List (List ℚ)).length :=
  (skeleton_future_no_effect (fun q => q) exampleParams [[1]] 3).2 [[1]] [1] (by
    norm_num [RNN.forward, runSteps, RNNCellParams.run, LinearParams.run,
      matVec, dot, vadd, torchCat, exampleParams])

/-- With `alpha = 1` the exponential-smoothing loop body coincides with the
naive loop body: `1 * h + (1 - 1) * p = h`. -/
lemma expStep_one (tl : Nat) (test : List ℚ) :
    expStep 1 tl test = naiveStep tl test := by
  funext st i
  simp only [expStep, naiveStep]
  by_cases h : i = 0
  · simp [h]
  · rw [if_neg h]
    norm_num

/-- **C10.** The exponential smoothing baseline with `alpha = 1` coincides
with the naive baseline: for every training history and test sequence the two
walk-forward loops produce exactly the same prediction array. -/
theorem exponential_smoothing_one_eq_naive (train test : List ℚ) :
    exponential_smoothing 1 train test = naivePredictions train test := by
  unfold exponential_smoothing naivePredictions
  rw [expStep_one]

/-- A well-formed cell applied to a correctly sized input and state succeeds
and returns a state of length `hiddenSize`. -/
lemma cell_run_ok (act : ℚ → ℚ) (c : RNNCellParams) (x h : List ℚ)
    (hwf : c.WF) (hx : x.length = c.inputSize) (hh : h.length = c.hiddenSize) :
    ∃ h1, c.run act x h = .ok h1 ∧ h1.length = c.hiddenSize := by
  obtain ⟨w1, b1, w2, b2⟩ := hwf
  simp only [RNNCellParams.run]
  rw [if_pos ⟨hx, hh⟩]
  refine ⟨_, rfl, ?_⟩
  simp [vadd, matVec, List.length_zipWith, w1, b1, w2, b2]

/-- A well-formed linear layer applied to a correctly sized state succeeds and
returns an output of length `outFeatures`. -/
lemma linear_run_ok (l : LinearParams) (h : List ℚ)
    (hwf : l.WF) (hh : h.length = l.inFeatures) :
    ∃ y, l.run h = .ok y ∧ y.length = l.outFeatures := by
  obtain ⟨w1, b1⟩ := hwf
  simp only [LinearParams.run]
  rw [if_pos hh]
  refine ⟨_, rfl, ?_⟩
  simp [vadd, matVec, List.length_zipWith, w1, b1]

/-- The open-loop body on well-shaped data succeeds, appends one output of
length `outputSize` per input step, and keeps the state at `hiddenSize`. -/
lemma runSteps_ok (act : ℚ → ℚ) (p : RNNParams) (hwf : p.WF) :
    ∀ (input : List (List ℚ)) (hidden acc : _),
    (∀ x ∈ input, x.length = p.inputSize) → hidden.length = p.hiddenSize →
    ∃ outs hfin, runSteps act p input hidden acc = .ok (acc ++ outs, hfin) ∧
      outs.length = input.length ∧ (∀ o ∈ outs, o.length = p.outputSize) ∧
      hfin.length = p.hiddenSize := by
  obtain ⟨hcwf, hlwf, hci, hch, hli, hlo⟩ := hwf
  intro input
  induction input with
  | nil =>
    intro hidden acc _ hh
    exact ⟨[], hidden, by simp [runSteps], by simp, by simp, hh⟩
  | cons x rest ih =>
    intro hidden acc hin hh
    obtain ⟨h1, hc, hlen1⟩ := cell_run_ok act p.rnn1 x hidden hcwf
      ((hin x (List.mem_cons_self x rest)).trans hci.symm) (hh.trans hch.symm)
    obtain ⟨out, hl, hlen2⟩ := linear_run_ok p.linear h1 hlwf
      (hlen1.trans (hch.trans hli.symm))
    obtain ⟨outs, hfin, hrun, ho1, ho2, ho3⟩ := ih h1 (acc ++ [out])
      (fun y hy => hin y (List.mem_cons_of_mem x hy)) (hlen1.trans hch)
    refine ⟨out :: outs, hfin, ?_, by simp [ho1], ?_, ho3⟩
    · simp only [runSteps, hc, hl]
      rw [hrun]
      simp
    · intro o ho
      rcases List.mem_cons.mp ho with rfl | ho
      · exact hlen2.trans hlo
      · exact ho2 o ho

/-- The closed-loop phase on a well-formed model whose output size feeds back
as the input size succeeds and produces exactly `n` outputs. -/
lemma futureSteps_ok (act : ℚ → ℚ) (p : RNNParams) (hwf : p.WF)
    (hio : p.outputSize = p.inputSize) :
    ∀ (n : Nat) (out hidden : List ℚ),
    out.length = p.outputSize → hidden.length = p.hiddenSize →
    ∃ fouts hfin, futureSteps act p n out hidden = .ok (fouts, hfin) ∧
      fouts.length = n ∧ (∀ o ∈ fouts, o.length = p.outputSize) ∧
      hfin.length = p.hiddenSize := by
  obtain ⟨hcwf, hlwf, hci, hch, hli, hlo⟩ := hwf
  intro n
  induction n with
  | zero =>
    intro out hidden _ hh
    exact ⟨[], hidden, by simp [futureSteps], rfl, by simp, hh⟩
  | succ m ih =>
    intro out hidden ho hh
    obtain ⟨h1, hc, hlen1⟩ := cell_run_ok act p.rnn1 out hidden hcwf
      ((ho.trans hio).trans hci.symm) (hh.trans hch.symm)
    obtain ⟨out1, hl, hlen2⟩ := linear_run_ok p.linear h1 hlwf
      (hlen1.trans (hch.trans hli.symm))
    obtain ⟨fouts, hfin, hrun, hf1, hf2, hf3⟩ := ih out1 h1
      (hlen2.trans hlo) (hlen1.trans hch)
    refine ⟨out1 :: fouts, hfin, ?_, by simp [hf1], ?_, hf3⟩
    · simp only [futureSteps, hc, hl, hrun]
    · intro o ho'
      rcases List.mem_cons.mp ho' with rfl | ho'
      · exact hlen2.trans hlo
      · exact hf2 o ho'

/-- If some input step has the wrong dimension, the open-loop body aborts with
a shape error (the first offending step raises before any result is built). -/
lemma runSteps_shape_error (act : ℚ → ℚ) (p : RNNParams) (hwf : p.WF) :
    ∀ (input : List (List ℚ)) (hidden acc : _),
    hidden.length = p.hiddenSize → (∃ x ∈ input, x.length ≠ p.inputSize) →
    runSteps act p input hidden acc = .error .shapeMismatch := by
  have hwf' := hwf
  obtain ⟨hcwf, hlwf, hci, hch, hli, hlo⟩ := hwf'
  intro input
  induction input with
  | nil =>
    intro hidden acc _ hbad
    simp at hbad
  | cons x rest ih =>
    intro hidden acc hh hbad
    by_cases hx : x.length = p.inputSize
    · obtain ⟨h1, hc, hlen1⟩ := cell_run_ok act p.rnn1 x hidden hcwf
        (hx.trans hci.symm) (hh.trans hch.symm)
      obtain ⟨out, hl, _⟩ := linear_run_ok p.linear h1 hlwf
        (hlen1.trans (hch.trans hli.symm))
      have hbad' : ∃ y ∈ rest, y.length ≠ p.inputSize := by
        rcases hbad with ⟨y, hy, hyl⟩
        rcases List.mem_cons.mp hy with rfl | hy
        · exact absurd hx hyl
        · exact ⟨y, hy, hyl⟩
      simp only [runSteps, hc, hl]
      exact ih h1 (acc ++ [out]) (hlen1.trans hch) hbad'
    · have hcfail : p.rnn1.run act x hidden = .error .shapeMismatch := by
        simp only [RNNCellParams.run]
        rw [if_neg]
        intro hcon
        exact hx (hcon.1.trans hci)
      simp only [runSteps, hcfail]

/-- **C1.** Modelled from the spec (the completed driver of
`solutions/1_future.py` is not in the source tree): on a well-formed model
whose projected output feeds back as the next input, every non-empty input
sequence of `T` correctly sized steps and every `future >= 0` produce a
prediction trace of length `T + future`; in particular `future = 0` gives
length `T`. -/
theorem unrollDriver_trace_length (act : ℚ → ℚ) (p : RNNParams)
    (input : List (List ℚ)) (future : Nat) (hwf : p.WF)
    (hio : p.outputSize = p.inputSize)
    (hin : ∀ x ∈ input, x.length = p.inputSize) (hne : input ≠ []) :
    ∃ trace hfin, unrollDriver act p input future = .ok (trace, hfin) ∧
      trace.length = input.length + future := by
  obtain ⟨outs, hT, hrun, ho1, ho2, ho3⟩ := runSteps_ok act p hwf input
    (List.replicate p.hiddenSize 0) [] hin (by simp)
  simp only [List.nil_append] at hrun
  have houtne : outs ≠ [] := by
    intro hnil
    rw [hnil] at ho1
    exact hne (List.length_eq_zero.mp ho1.symm)
  have hglast : outs.getLast? = some (outs.getLast houtne) :=
    List.getLast?_eq_getLast outs houtne
  obtain ⟨fouts, hfin, hfrun, hf1, hf2, hf3⟩ := futureSteps_ok act p hwf hio
    future (outs.getLast houtne) hT (ho2 _ (List.getLast_mem houtne)) ho3
  have hcond : ¬(input.isEmpty = true ∧ 0 < future) := by
    intro hcon
    exact hne (List.isEmpty_iff.mp hcon.1)
  refine ⟨outs ++ fouts, hfin, ?_, by simp [ho1, hf1]⟩
  simp only [unrollDriver, if_neg hcond, hrun, hglast, hfrun]

/-- Witness for C1: a concrete 1/1/1 model, one input step, `future = 2`, and
a trace of length `1 + 2`. -/
theorem unrollDriver_trace_length_witness :
    ∃ trace hfin, unrollDriver (fun q => q) exampleParams [[1]] 2 =
      .ok (trace, hfin) ∧ trace.length = ([[(1 : ℚ)]] : List (List ℚ)).length + 2 :=
  unrollDriver_trace_length (fun q => q) exampleParams [[1]] 2
    (by decide) (by decide) (by decide) (by decide)

/-- **C7.** A call whose input contains a step of the wrong dimension aborts
with a shape error and returns no partial trace — the whole call returns the
error, for the skeleton `RNN.forward` and for the completed unroll driver
alike (the `Except` result is either a full trace or an error, never a
prefix). -/
theorem shape_mismatch_aborts (act : ℚ → ℚ) (p : RNNParams)
    (input : List (List ℚ)) (future : Nat) (hwf : p.WF)
    (hbad : ∃ x ∈ input, x.length ≠ p.inputSize) :
    RNN.forward act p input future = .error .shapeMismatch ∧
    unrollDriver act p input future = .error .shapeMismatch := by
  have hrun := runSteps_shape_error act p hwf input
    (List.replicate p.hiddenSize 0) [] (by simp) hbad
  constructor
  · simp only [RNN.forward, hrun]
  · have hne : input ≠ [] := by
      rintro rfl
      simp at hbad
    have hcond : ¬(input.isEmpty = true ∧ 0 < future) := by
      intro hcon
      exact hne (List.isEmpty_iff.mp hcon.1)
    simp only [unrollDriver, if_neg hcond, hrun]

/-- Witness for C7: the second input step has dimension 2 against a configured
input size of 1. -/
theorem shape_mismatch_aborts_witness :
    RNN.forward (fun q => q) exampleParams [[1], [1, 1]] 2 =
      .error .shapeMismatch ∧
    unrollDriver (fun q => q) exampleParams [[1], [1, 1]] 2 =
      .error .shapeMismatch :=
  shape_mismatch_aborts (fun q => q) exampleParams [[1], [1, 1]] 2
    (by decide) (by decide)

/-- `getLast` as a default-valued indexed read. -/
lemma getLast_eq_getD (l : List (List ℚ)) (h : l ≠ []) :
    l.getLast h = l.getD (l.length - 1) [] := by
  rw [List.getLast_eq_getElem, List.getD_eq_getElem]

/-- Every successful closed-loop run is a chain: there is a sequence of
states, starting at the given state, such that step `k` applies the
recurrence kernel to the `k`-th element of seed-output-then-future-outputs
and the `k`-th state, and the projection of the resulting state is exactly
the `k`-th future output. -/
lemma futureSteps_chain (act : ℚ → ℚ) (p : RNNParams) :
    ∀ (n : Nat) (out hidden : List ℚ) (fouts : List (List ℚ)) (hfin : List ℚ),
    futureSteps act p n out hidden = .ok (fouts, hfin) →
    ∃ hs : List (List ℚ), hs.length = n + 1 ∧ hs.getD 0 [] = hidden ∧
      hs.getD n [] = hfin ∧
      ∀ k, k < n →
        p.rnn1.run act ((out :: fouts).getD k []) (hs.getD k []) =
          .ok (hs.getD (k + 1) []) ∧
        p.linear.run (hs.getD (k + 1) []) = .ok (fouts.getD k []) := by
  intro n
  induction n with
  | zero =>
    intro out hidden fouts hfin h
    simp only [futureSteps] at h
    cases h
    exact ⟨[hidden], rfl, rfl, rfl, fun k hk => absurd hk (by omega)⟩
  | succ m ih =>
    intro out hidden fouts hfin h
    simp only [futureSteps] at h
    split at h
    · cases h
    · rename_i h1 hcell
      split at h
      · cases h
      · rename_i out1 hlin
        split at h
        · cases h
        · rename_i rest hfin1 hrec
          cases h
          obtain ⟨hs1, hlen, hhead, hlast, hchain⟩ := ih _ _ _ _ hrec
          refine ⟨hidden :: hs1, by simp [hlen], by simp,
            by rw [List.getD_cons_succ]; exact hlast, ?_⟩
          intro k hk
          cases k with
          | zero =>
            refine ⟨?_, ?_⟩
            · simp only [List.getD_cons_zero, List.getD_cons_succ, hhead]
              exact hcell
            · simp only [List.getD_cons_zero, List.getD_cons_succ, hhead]
              exact hlin
          | succ j =>
            have hj : j < m := by omega
            simpa only [List.getD_cons_succ] using hchain j hj

/-- **C2.** Modelled from the spec (the completed driver of
`solutions/1_future.py` is not in the source tree): with `future = f > 0`,
the trace extends the open-loop outputs, and each of the last `f` steps
consumes the most recently produced trace entry as its input — there is a
sequence of carried states, starting at the open-loop final state, such that
step `T + k` applies the recurrence kernel to trace entry `T + k - 1` and
the projection of the new state is exactly trace entry `T + k`.  The last
`f` entries are thus reproducible by re-running the step function and output
projection on the model's own prior outputs. -/
theorem unrollDriver_closed_loop (act : ℚ → ℚ) (p : RNNParams)
    (input : List (List ℚ)) (future : Nat) (hwf : p.WF)
    (hio : p.outputSize = p.inputSize)
    (hin : ∀ x ∈ input, x.length = p.inputSize) (hne : input ≠ [])
    (hf : 0 < future) :
    ∃ (openOuts : List (List ℚ)) (hT : List ℚ) (trace : List (List ℚ))
      (hfin : List ℚ) (hs : List (List ℚ)),
      runSteps act p input (List.replicate p.hiddenSize (0 : ℚ)) [] =
        .ok (openOuts, hT) ∧
      unrollDriver act p input future = .ok (trace, hfin) ∧
      openOuts.length = input.length ∧
      trace.length = input.length + future ∧
      trace.take input.length = openOuts ∧
      hs.length = future + 1 ∧
      hs.getD 0 [] = hT ∧
      hs.getD future [] = hfin ∧
      ∀ k, k < future →
        p.rnn1.run act (trace.getD (input.length + k - 1) []) (hs.getD k []) =
          .ok (hs.getD (k + 1) []) ∧
        p.linear.run (hs.getD (k + 1) []) =
          .ok (trace.getD (input.length + k) []) := by
  obtain ⟨outs, hT, hrun, ho1, ho2, ho3⟩ := runSteps_ok act p hwf input
    (List.replicate p.hiddenSize 0) [] hin (by simp)
  simp only [List.nil_append] at hrun
  have houtne : outs ≠ [] := by
    intro hnil
    rw [hnil] at ho1
    exact hne (List.length_eq_zero.mp ho1.symm)
  have hglast : outs.getLast? = some (outs.getLast houtne) :=
    List.getLast?_eq_getLast outs houtne
  obtain ⟨fouts, hfin, hfrun, hf1, hf2, hf3⟩ := futureSteps_ok act p hwf hio
    future (outs.getLast houtne) hT (ho2 _ (List.getLast_mem houtne)) ho3
  obtain ⟨hs, hlen, hhead, hlast, hchain⟩ := futureSteps_chain act p
    future (outs.getLast houtne) hT fouts hfin hfrun
  have hcond : ¬(input.isEmpty = true ∧ 0 < future) := by
    intro hcon
    exact hne (List.isEmpty_iff.mp hcon.1)
  have hTpos : 0 < input.length := List.length_pos.mpr hne
  refine ⟨outs, hT, outs ++ fouts, hfin, hs, hrun, ?_, ho1,
    by simp [ho1, hf1], by rw [← ho1, List.take_left], hlen, hhead, hlast, ?_⟩
  · simp only [unrollDriver, if_neg hcond, hrun, hglast, hfrun]
  · intro k hk
    have htrace_in : (outs ++ fouts).getD (input.length + k - 1) [] =
        (outs.getLast houtne :: fouts).getD k [] := by
      cases k with
      | zero =>
        have hidx : input.length + 0 - 1 < outs.length := by omega
        rw [List.getD_append _ _ _ _ hidx, List.getD_cons_zero,
          getLast_eq_getD outs houtne, ho1]
        congr 1
      | succ j =>
        have hidx : outs.length ≤ input.length + (j + 1) - 1 := by omega
        rw [List.getD_append_right _ _ _ _ hidx, List.getD_cons_succ, ho1]
        congr 1
        omega
    have htrace_out : (outs ++ fouts).getD (input.length + k) [] =
        fouts.getD k [] := by
      have hidx : outs.length ≤ input.length + k := by omega
      rw [List.getD_append_right _ _ _ _ hidx, ho1]
      congr 1
      omega
    rw [htrace_in, htrace_out]
    exact hchain k hk

/-- Witness for C2: the concrete 1/1/1 model with one input step and
`future = 2`. -/
theorem unrollDriver_closed_loop_witness :
    ∃ (openOuts : List (List ℚ)) (hT : List ℚ) (trace : List (List ℚ))
      (hfin : List ℚ) (hs : List (List ℚ)),
      runSteps (fun q => q) exampleParams [[1]]
        (List.replicate exampleParams.hiddenSize (0 : ℚ)) [] =
        .ok (openOuts, hT) ∧
      unrollDriver (fun q => q) exampleParams [[1]] 2 = .ok (trace, hfin) ∧
      openOuts.length = ([[(1 : ℚ)]] : List (List ℚ)).length ∧
      trace.length = ([[(1 : ℚ)]] : List (List ℚ)).length + 2 ∧
      trace.take ([[(1 : ℚ)]] : List (List ℚ)).length = openOuts ∧
      hs.length = 2 + 1 ∧
      hs.getD 0 [] = hT ∧
      hs.getD 2 [] = hfin ∧
      ∀ k, k < 2 →
        exampleParams.rnn1.run (fun q => q)
            (trace.getD (([[(1 : ℚ)]] : List (List ℚ)).length + k - 1) [])
            (hs.getD k []) = .ok (hs.getD (k + 1) []) ∧
        exampleParams.linear.run (hs.getD (k + 1) []) =
          .ok (trace.getD (([[(1 : ℚ)]] : List (List ℚ)).length + k) []) :=
  unrollDriver_closed_loop (fun q => q) exampleParams [[1]] 2
    (by decide) (by decide) (by decide) (by decide) (by decide)

/-- A numpy read at a nonnegative index is a plain default-valued read. -/
lemma npGet_nonneg (xs : List ℚ) (t : Int) (h : 0 ≤ t) :
    npGet xs t = xs.getD t.toNat 0 := by
  simp [npGet, not_lt.mpr h]

/-- Reading back the position just written. -/
lemma getD_set_self' (l : List ℚ) (i : Nat) (v : ℚ) (h : i < l.length) :
    (l.set i v).getD i 0 = v := by
  rw [List.getD_eq_getElem _ _ (by simpa using h)]
  simp [List.getElem_set_self]

/-- Writing one position leaves every other read unchanged. -/
lemma getD_set_ne' (l : List ℚ) (i j : Nat) (v : ℚ) (hne : i ≠ j) :
    (l.set i v).getD j 0 = l.getD j 0 := by
  simp [List.getD, List.getElem?_set_ne hne]

/-- The returned predictions of the smoothing cell are the second component of
the loop state after all `len(test_signal)` iterations. -/
lemma exponential_smoothing_eq_loopState (alpha : ℚ) (train test : List ℚ) :
    exponential_smoothing alpha train test =
      (expLoopState alpha train test test.length).2 := rfl

/-- Loop invariant of the exponential-smoothing walk-forward loop: after `k`
iterations the history keeps its length and its training prefix, positions
`len(train) + j` for `j < k` hold the revealed observations `test[j]`, and
`predictions[j]` for `j < k` holds the recurrence value `specPredExp j`. -/
lemma expLoopState_invariant (alpha : ℚ) (train test : List ℚ) :
    ∀ k, k ≤ test.length →
    (expLoopState alpha train test k).1.length = train.length + test.length ∧
    (expLoopState alpha train test k).2.length = test.length ∧
    (∀ j, j < train.length →
      (expLoopState alpha train test k).1.getD j 0 = train.getD j 0) ∧
    (∀ j, j < k →
      (expLoopState alpha train test k).1.getD (train.length + j) 0 =
        test.getD j 0) ∧
    (∀ j, j < k →
      (expLoopState alpha train test k).2.getD j 0 =
        specPredExp alpha train test j) := by
  intro k
  induction k with
  | zero =>
    intro _
    simp only [expLoopState, List.range_zero, List.foldl_nil]
    refine ⟨by simp, by simp, ?_, ?_, ?_⟩
    · intro j hj
      exact List.getD_append _ _ _ _ hj
    · intro j hj
      exact absurd hj (Nat.not_lt_zero j)
    · intro j hj
      exact absurd hj (Nat.not_lt_zero j)
  | succ m ih =>
    intro hk1
    have hkn : m < test.length := by omega
    obtain ⟨ih1, ih2, ih3, ih4, ih5⟩ := ih (by omega)
    have hstep : expLoopState alpha train test (m + 1) =
        expStep alpha train.length test (expLoopState alpha train test m) m := by
      simp only [expLoopState, List.range_succ, List.foldl_append,
        List.foldl_cons, List.foldl_nil]
    set st := expLoopState alpha train test m with hst
    have hfst : (expStep alpha train.length test st m).1 =
        st.1.set (train.length + m) (test.getD m 0) := rfl
    have hpred : (expStep alpha train.length test st m).2 =
        st.2.set m (specPredExp alpha train test m) := by
      cases m with
      | zero =>
        have hst0 : st = (train ++ List.replicate test.length 0,
            List.replicate test.length 0) := by
          rw [hst]
          simp only [expLoopState, List.range_zero, List.foldl_nil]
        rw [hst0]
        simp [expStep, specPredExp]
      | succ j =>
        simp only [expStep]
        rw [if_neg (Nat.succ_ne_zero j)]
        have e1 : npGet st.1 (((train.length + (j + 1) : Nat) : Int) - 1) =
            test.getD j 0 := by
          rw [npGet_nonneg _ _ (by omega)]
          have hnt : (((train.length + (j + 1) : Nat) : Int) - 1).toNat =
              train.length + j := by omega
          rw [hnt]
          exact ih4 j (Nat.lt_succ_self j)
        have e2 : npGet st.2 (((j + 1 : Nat) : Int) - 1) =
            specPredExp alpha train test j := by
          rw [npGet_nonneg _ _ (by omega)]
          have hnt : (((j + 1 : Nat) : Int) - 1).toNat = j := by omega
          rw [hnt]
          exact ih5 j (Nat.lt_succ_self j)
        rw [e1, e2]
        rfl
    rw [hstep]
    refine ⟨?_, ?_, ?_, ?_, ?_⟩
    · rw [hfst]
      simp [List.length_set, ih1]
    · rw [hpred]
      simp [List.length_set, ih2]
    · intro j hj
      rw [hfst, getD_set_ne' _ _ _ _ (by omega)]
      exact ih3 j hj
    · intro j hj
      rcases Nat.lt_succ_iff_lt_or_eq.mp hj with hj' | rfl
      · rw [hfst, getD_set_ne' _ _ _ _ (by omega)]
        exact ih4 j hj'
      · rw [hfst, getD_set_self' _ _ _ (by rw [ih1]; omega)]
    · intro j hj
      rcases Nat.lt_succ_iff_lt_or_eq.mp hj with hj' | rfl
      · rw [hpred, getD_set_ne' _ _ _ _ (by omega)]
        exact ih5 j hj'
      · rw [hpred, getD_set_self' _ _ _ (by rw [ih2]; omega)]

/-- **C5.** The exponential smoothing baseline with `alpha` in `(0,1]`
satisfies, for every non-empty training history and every test sequence:
`prediction[0]` is the last value of the training history, and for `i > 0`,
`prediction[i] = alpha * test[i-1] + (1-alpha) * prediction[i-1]`, where
`test[i-1]` is the true observation revealed at the previous walk-forward
step. -/
theorem exponential_smoothing_recurrence (alpha : ℚ) (train test : List ℚ)
    (halpha : 0 < alpha ∧ alpha ≤ 1) (htr : train ≠ []) :
    (0 < test.length →
      (exponential_smoothing alpha train test).getD 0 0 = train.getLast htr) ∧
    (∀ i, 0 < i → i < test.length →
      (exponential_smoothing alpha train test).getD i 0 =
        alpha * test.getD (i - 1) 0 +
        (1 - alpha) * (exponential_smoothing alpha train test).getD (i - 1) 0) := by
  obtain ⟨h1, h2, h3, h4, h5⟩ :=
    expLoopState_invariant alpha train test test.length le_rfl
  rw [exponential_smoothing_eq_loopState]
  have htl : 0 < train.length := List.length_pos.mpr htr
  constructor
  · intro hpos
    rw [h5 0 hpos]
    simp only [specPredExp]
    rw [npGet_nonneg _ _ (by omega)]
    have hnt : ((train.length : Int) - 1).toNat = train.length - 1 := by omega
    rw [hnt, List.getD_append _ _ _ _ (by omega)]
    rw [List.getLast_eq_getElem, List.getD_eq_getElem _ _ (by omega)]
  · intro i hi hin
    obtain ⟨j, rfl⟩ : ∃ j, i = j + 1 := ⟨i - 1, by omega⟩
    rw [h5 (j + 1) hin]
    simp only [Nat.add_sub_cancel]
    rw [h5 j (by omega)]
    simp [specPredExp]

/-- Witness for C5: `alpha = 1/2`, history `[1,2]`, test `[3,4,5]`; the
theorem's recurrence instantiated at `i = 1`. -/
theorem exponential_smoothing_recurrence_witness :
    (exponential_smoothing (1/2) [1, 2] [3, 4, 5]).getD 1 0 =
      (1/2) * ([3, 4, 5] : List ℚ).getD 0 0 +
      (1 - 1/2) * (exponential_smoothing (1/2) [1, 2] [3, 4, 5]).getD 0 0 :=
  (exponential_smoothing_recurrence (1/2) [1, 2] [3, 4, 5]
    ⟨by norm_num, by norm_num⟩ (by simp)).2 1 (by norm_num) (by norm_num)
